import Mathlib

/-!
A verification development for the actor/state core excerpted in
`LEGO1/lego/legoomni` (`helicopter.h`, `pizza.cpp`): the
`PizzaMissionState` serialization codec and id lookup, the `Pizza`
actor lifecycle (`Create`, `CreateState`, destructor, event stubs),
the `Helicopter::IsA` type query, and the tickle scheduler contract.

Machine integers are modelled as `Nat` with explicit bounds where the
byte width matters; a C++ `NULL`-able pointer is an `Option`; a byte
stream is a `List Nat` of byte values.  The bounded `for` loops of the
source are embedded as structural recursion on the count of remaining
iterations (`fuel`), so every definition evaluates by kernel reduction.
-/

/-- Result code `MxResult`; `SUCCESS` is 0, failures are nonzero. -/
abbrev MxResult := Int

/-- The `SUCCESS` result code. -/
def SUCCESS : MxResult := 0

/-- The `FAILURE` result code (-1 in the sources). -/
def FAILURE : MxResult := -1

/-- Long result code `MxLong` of the event hooks. -/
abbrev MxLong := Int

/-- Little-endian encoding of `v` into exactly `w` bytes. -/
def natToBytes : Nat → Nat → List Nat
  | 0, _ => []
  | w + 1, v => v % 256 :: natToBytes w (v / 256)

/-- Little-endian decoding of a byte list. -/
def bytesToNat : List Nat → Nat
  | [] => 0
  | b :: bs => b + 256 * bytesToNat bs

/-- Modelled from the spec: one `PizzaMissionState::Entry` record
(`pizza.h` with the field list is not under `src/`): a fixed-width
binary record of a small integer id plus flag/counter fields.  We model
the observable fields: the byte-sized `m_id` key, a flag/counter word
`m_flags`, and the 32-bit `m_unk0x10` counter assigned in `pizza.cpp`. -/
structure Entry where
  m_id : Nat
  m_flags : Nat
  m_unk0x10 : Nat
deriving DecidableEq, Repr

/-- Valid entries: field values fit their binary widths (u8, u16, u32). -/
def Entry.valid (e : Entry) : Prop :=
  e.m_id < 256 ∧ e.m_flags < 65536 ∧ e.m_unk0x10 < 4294967296

instance (e : Entry) : Decidable e.valid := by
  unfold Entry.valid; infer_instance

/-- The all-zero entry (the "defined zeroed state" of the spec). -/
def Entry.zero : Entry := ⟨0, 0, 0⟩

/-- Modelled from the spec: `Entry::WriteToFile` (not under `src/`)
emits the fields in declaration order, field-by-field, little-endian,
with no delimiters. -/
def entryToBytes (e : Entry) : List Nat :=
  natToBytes 1 e.m_id ++ natToBytes 2 e.m_flags ++ natToBytes 4 e.m_unk0x10

/-- Width in bytes of one serialized entry record in this model. -/
def entryWidth : Nat := 7

/-- Modelled from the spec: one fixed-width field read (not under
`src/`).  The read succeeds only when the stream still holds the full
field width; at end of stream the field keeps its previous value and
the stream is not consumed (fread-style tolerance, no length check). -/
def readField (w : Nat) (old : Nat) (s : List Nat) : Nat × List Nat :=
  if w ≤ s.length then (bytesToNat (s.take w), s.drop w) else (old, s)

/-- Modelled from the spec: `Entry::ReadFromFile` (not under `src/`)
reads the fields back in the same order and widths as `WriteToFile`. -/
def Entry.readFromFile (old : Entry) (s : List Nat) : Entry × List Nat :=
  let p1 := readField 1 old.m_id s
  let p2 := readField 2 old.m_flags p1.2
  let p3 := readField 4 old.m_unk0x10 p2.2
  (⟨p1.1, p2.1, p3.1⟩, p3.2)

/-- The entry denoted by one full-width record of bytes. -/
def decodeEntry (bs : List Nat) : Entry :=
  ⟨bytesToNat (bs.take 1), bytesToNat ((bs.drop 1).take 2), bytesToNat (bs.drop 3)⟩

/-- File access mode of a `LegoFile` (`IsReadMode` / `IsWriteMode`). -/
inductive FileMode where
  | read
  | write
deriving DecidableEq, Repr

/-- A `LegoFile`: its mode, the bytes still to be read, and the bytes
written so far. -/
structure LegoFile where
  mode : FileMode
  contents : List Nat
  written : List Nat
deriving DecidableEq, Repr

/-- The `PizzaMissionState`: the `m_unk0x0c` word and the fixed
five-entry `m_state` array (from `DECOMP_SIZE_ASSERT` and the loops in
`pizza.cpp`, capacity is exactly 5). -/
structure PizzaMissionState where
  m_unk0x0c : Nat
  m_state : Fin 5 → Entry

/-- Modelled from the spec: the base-class `LegoState::Serialize`
(not under `src/`) contributes no entry bytes; the subclass loop
carries the whole record payload. -/
def legoStateSerialize (f : LegoFile) : LegoFile := f

/-- The write loop of `PizzaMissionState::Serialize`,
`for (i = 0; i < 5; i++) m_state[i].WriteToFile(p_file)`, as structural
recursion on the remaining iteration count `fuel` (run with
`fuel = 5`, `i = 0`; run with `fuel` below `5 - i` it also models a
stream truncated after `fuel` full records). -/
def writeLoop (f : Fin 5 → Entry) : Nat → Nat → List Nat
  | 0, _ => []
  | fuel + 1, i =>
      if h : i < 5 then entryToBytes (f ⟨i, h⟩) ++ writeLoop f fuel (i + 1)
      else []

/-- The read loop of `PizzaMissionState::Serialize`,
`for (i = 0; i < 5; i++) m_state[i].ReadFromFile(p_file)`, as
structural recursion on the remaining iteration count `fuel` (run with
`fuel = 5`, `i = 0`). -/
def readLoop : Nat → (Fin 5 → Entry) → List Nat → Nat → (Fin 5 → Entry) × List Nat
  | 0, g, s, _ => (g, s)
  | fuel + 1, g, s, i =>
      if h : i < 5 then
        let p := Entry.readFromFile (g ⟨i, h⟩) s
        readLoop fuel (Function.update g ⟨i, h⟩ p.1) p.2 (i + 1)
      else (g, s)

/-- `PizzaMissionState::Serialize`: after the base-class call, read or
write the five entries in index order 0..4 depending on the file mode,
and return `SUCCESS` unconditionally. -/
def PizzaMissionState.serialize (st : PizzaMissionState) (file : LegoFile) :
    MxResult × PizzaMissionState × LegoFile :=
  let f0 := legoStateSerialize file
  match f0.mode with
  | FileMode.read =>
      let p := readLoop 5 st.m_state f0.contents 0
      (SUCCESS, ⟨st.m_unk0x0c, p.1⟩, ⟨f0.mode, p.2, f0.written⟩)
  | FileMode.write =>
      (SUCCESS, st, ⟨f0.mode, f0.contents, f0.written ++ writeLoop st.m_state 5 0⟩)

/-- The scan loop of `PizzaMissionState::GetState`,
`for (i = 0; i < 5; i++) if (m_state[i].m_id == p_id) return m_state + i`,
as structural recursion on the remaining iteration count. -/
def getStateLoop (st : PizzaMissionState) (p_id : Nat) : Nat → Nat → Option (Fin 5)
  | 0, _ => none
  | fuel + 1, i =>
      if h : i < 5 then
        if (st.m_state ⟨i, h⟩).m_id = p_id then some ⟨i, h⟩
        else getStateLoop st p_id fuel (i + 1)
      else none

/-- `PizzaMissionState::GetState(p_id)`: linear scan of `m_state[0..4]`;
`some i` models the returned pointer `m_state + i`, `none` models NULL. -/
def PizzaMissionState.getState (st : PizzaMissionState) (p_id : Nat) :
    Option (Fin 5) :=
  getStateLoop st p_id 5 0

/-- Modelled from the spec: the game-state registry (`legogamestate` is
not under `src/`): a keyed store of named, lazily-instantiated state
objects; objects are modelled by numeric ids allocated from `next`. -/
structure Registry where
  table : String → Option Nat
  next : Nat

/-- Modelled from the spec: registry `GetState(name)` returns the
existing state object for `name` or NULL. -/
def Registry.getState (r : Registry) (name : String) : Option Nat :=
  r.table name

/-- Modelled from the spec: registry `CreateState(name)` allocates a
new state object, registers it under `name`, and returns it. -/
def Registry.createState (r : Registry) (name : String) : Registry × Nat :=
  (⟨Function.update r.table name (some r.next), r.next + 1⟩, r.next)

/-- One observed call into the registry, with its result. -/
inductive RegCall where
  | get (name : String) (result : Option Nat)
  | create (name : String) (result : Nat)
deriving DecidableEq, Repr

/-- The `Pizza` actor's own fields (those set by the constructor in
`pizza.cpp`); pointers are object ids, NULL is `none`. -/
structure Pizza where
  m_state : Option Nat
  m_entry : Option Nat
  m_skateboard : Option Nat
  m_act1state : Option Nat
  m_unk0x8c : Int
  m_unk0x98 : Nat
  m_unk0x90 : Nat
deriving DecidableEq, Repr

/-- `Pizza::Pizza()`: all pointers NULL, `m_unk0x8c = -1`,
`m_unk0x98 = 0`, `m_unk0x90 = 0x80000000`. -/
def pizzaInit : Pizza := ⟨none, none, none, none, -1, 0, 2147483648⟩

/-- `Pizza::CreateState()`: look up "PizzaMissionState", create it only
when the lookup returned NULL, store the obtained object in `m_state`;
then the same for "Act1State" into `m_act1state`.  Also returns the
trace of registry calls, in order. -/
def Pizza.createState (p : Pizza) (r : Registry) :
    Pizza × Registry × List RegCall :=
  let g1 := r.getState "PizzaMissionState"
  let s1 := match g1 with
    | some s => (s, r, [RegCall.get "PizzaMissionState" g1])
    | none =>
        let c := r.createState "PizzaMissionState"
        (c.2, c.1, [RegCall.get "PizzaMissionState" g1,
                    RegCall.create "PizzaMissionState" c.2])
  let r1 := s1.2.1
  let g2 := r1.getState "Act1State"
  let s2 := match g2 with
    | some s => (s, r1, [RegCall.get "Act1State" g2])
    | none =>
        let c := r1.createState "Act1State"
        (c.2, c.1, [RegCall.get "Act1State" g2, RegCall.create "Act1State" c.2])
  ({ p with m_state := some s1.1, m_act1state := some s2.1 },
   s2.2.1, s1.2.2 ++ s2.2.2)

/-- `Pizza::Create(p_dsAction)`: run the base-class `IsleActor::Create`
(external; its result code is the `baseResult` argument) and only on
`SUCCESS` call `CreateState` and resolve the skateboard sibling through
the world's `Find` (external; its result is the `findResult` argument).
Returns the base result unchanged. -/
def Pizza.create (p : Pizza) (r : Registry) (baseResult : MxResult)
    (findResult : Option Nat) : MxResult × Pizza × Registry :=
  if baseResult = SUCCESS then
    let c := p.createState r
    (baseResult, { c.1 with m_skateboard := findResult }, c.2.1)
  else
    (baseResult, p, r)

/-- `Pizza::HandleClick()`: stub, returns 0 and touches nothing. -/
def Pizza.handleClick (p : Pizza) (r : Registry) : MxLong × Pizza × Registry :=
  (0, p, r)

/-- `Pizza::HandlePathStruct(param)`: stub, returns 0, touches nothing. -/
def Pizza.handlePathStruct (p : Pizza) (r : Registry) (_param : Nat) :
    MxLong × Pizza × Registry :=
  (0, p, r)

/-- `Pizza::HandleEndAction(param)`: stub, returns 0, touches nothing. -/
def Pizza.handleEndAction (p : Pizza) (r : Registry) (_param : Nat) :
    MxLong × Pizza × Registry :=
  (0, p, r)

/-- `Helicopter::ClassName()`: the literal "Helicopter". -/
def Helicopter.className : String := "Helicopter"

/-- `Helicopter::IsA(p_name)`:
`!strcmp(p_name, ClassName()) || IslePathActor::IsA(p_name)`; the
base-class query (not under `src/`) is kept abstract as `baseIsA`. -/
def Helicopter.isA (baseIsA : String → Bool) (p_name : String) : Bool :=
  (p_name == Helicopter.className) || baseIsA p_name

/-- Modelled from the spec: `Register(client)` is idempotent — an
already-registered client is left alone, a new one is appended, so the
list holds the clients in registration order. -/
def registerClient (l : List Nat) (c : Nat) : List Nat :=
  if c ∈ l then l else l ++ [c]

/-- Modelled from the spec: `Unregister(client)` removes the client
from the list (a no-op when it is not registered). -/
def unregisterClient (l : List Nat) (c : Nat) : List Nat :=
  l.erase c

/-- `Pizza::~Pizza()`: unconditionally
`TickleManager()->UnregisterClient(this)`, registered or not. -/
def pizzaDestructor (l : List Nat) (self : Nat) : List Nat :=
  unregisterClient l self

/-- Modelled from the spec: one `TickleAll()` pass over the mutable
client list, from cursor position `i`, as structural recursion on the
remaining iteration count `fuel`.  The client under the cursor is
ticked; when its callback unregisters it (`u c` is true) the entry is
erased in place and the cursor stays put (later entries shift down),
otherwise the cursor advances.  Returns the ticked clients in order
and the list the pass leaves behind. -/
def tickleLoop (u : Nat → Bool) : Nat → List Nat → Nat → List Nat × List Nat
  | 0, l, _ => ([], l)
  | fuel + 1, l, i =>
      if h : i < l.length then
        let c := l.get ⟨i, h⟩
        if u c then
          let p := tickleLoop u fuel (l.eraseIdx i) i
          (c :: p.1, p.2)
        else
          let p := tickleLoop u fuel l (i + 1)
          (c :: p.1, p.2)
      else ([], l)

/-- Modelled from the spec: `TickleAll()` starts its pass at cursor 0;
`l.length` iterations always suffice. -/
def tickleAll (u : Nat → Bool) (l : List Nat) : List Nat × List Nat :=
  tickleLoop u l.length l 0

/-- One scheduler operation of an interleaved sequence. -/
inductive TickleOp where
  | reg (c : Nat)
  | unreg (c : Nat)
  | tickle
deriving DecidableEq, Repr

/-- Run a sequence of Register/Unregister/TickleAll operations from
client list `l`; returns the final list and, for every TickleAll pass,
the list registered when the pass began paired with the clients the
pass ticked, in order. -/
def runOps (u : Nat → Bool) (ops : List TickleOp) (l : List Nat) :
    List Nat × List (List Nat × List Nat) :=
  match ops with
  | [] => (l, [])
  | TickleOp.reg c :: rest => runOps u rest (registerClient l c)
  | TickleOp.unreg c :: rest => runOps u rest (unregisterClient l c)
  | TickleOp.tickle :: rest =>
      let p := tickleAll u l
      let q := runOps u rest p.2
      (q.1, (l, p.1) :: q.2)

/-- Example entry used by the concrete witnesses: all fields valid and
pairwise distinct across indices. -/
def exEntry (i : Nat) : Entry := ⟨i + 1, 10 * i + 2, 1000 * i + 3⟩

/-- Example mission state with five distinct valid entries. -/
def exState : PizzaMissionState := ⟨0, fun j => exEntry j.val⟩

/-- Example pre-read state whose entries are visibly not zero. -/
def exFresh : PizzaMissionState := ⟨0, fun _ => ⟨7, 7, 7⟩⟩

/-- Example registry: empty table, ids allocated from 100. -/
def exRegistry : Registry := ⟨fun _ => none, 100⟩

/-- Example full-width byte record used by the concrete witnesses. -/
def exChunk (n : Nat) : List Nat := [n, 1, 0, 0, 0, 0, 2]

/-- The lookup-then-create protocol of `Pizza::CreateState` (claim C5):
the registry-call trace is one `GetState` per name, in order, each
followed by a `CreateState` call exactly when the lookup returned NULL;
afterwards `m_state` and `m_act1state` are non-NULL borrowed references
to what the registry now owns under the two names, and a hit returns
the pre-existing object. -/
def createStateProtocol (p : Pizza) (r : Registry) : Prop :=
  (∃ n1 n2 : Nat,
    (p.createState r).2.2
      = (RegCall.get "PizzaMissionState" (r.getState "PizzaMissionState")
          :: (if r.getState "PizzaMissionState" = none
              then [RegCall.create "PizzaMissionState" n1] else []))
        ++ (RegCall.get "Act1State" (r.getState "Act1State")
          :: (if r.getState "Act1State" = none
              then [RegCall.create "Act1State" n2] else [])))
  ∧ (p.createState r).1.m_state ≠ none
  ∧ (p.createState r).1.m_act1state ≠ none
  ∧ ((p.createState r).2.1).getState "PizzaMissionState"
      = (p.createState r).1.m_state
  ∧ ((p.createState r).2.1).getState "Act1State"
      = (p.createState r).1.m_act1state
  ∧ (r.getState "PizzaMissionState" ≠ none →
      (p.createState r).1.m_state = r.getState "PizzaMissionState")
  ∧ (r.getState "Act1State" ≠ none →
      (p.createState r).1.m_act1state = r.getState "Act1State")

/-- Strict single-pass entry order of `PizzaMissionState::Serialize`
(claim C7): in write mode the bytes appended to the file are exactly
the five entry records 0..4 concatenated in index order with nothing
between them; in read mode entry `j` of the result is decoded from the
`j`-th full-width record of the stream, in order, and exactly the five
records are consumed. -/
def serializeOrderProp (st fresh : PizzaMissionState)
    (cs ws b0 b1 b2 b3 b4 rest : List Nat) : Prop :=
  (PizzaMissionState.serialize st ⟨FileMode.write, cs, ws⟩).2.2.written
      = ws ++ (entryToBytes (st.m_state 0) ++ (entryToBytes (st.m_state 1)
        ++ (entryToBytes (st.m_state 2) ++ (entryToBytes (st.m_state 3)
        ++ (entryToBytes (st.m_state 4) ++ [])))))
  ∧ (∀ j : Fin 5,
      ((PizzaMissionState.serialize fresh
          ⟨FileMode.read, b0 ++ (b1 ++ (b2 ++ (b3 ++ (b4 ++ rest)))), ws⟩).2.1).m_state j
        = decodeEntry ([b0, b1, b2, b3, b4].getD j.val []))
  ∧ (PizzaMissionState.serialize fresh
      ⟨FileMode.read, b0 ++ (b1 ++ (b2 ++ (b3 ++ (b4 ++ rest)))), ws⟩).2.2.contents
      = rest

/-- Provenance of one field value after a tolerant read against the
original stream `s0`: the value either kept `old` (its previous
in-memory value) or was filled from `w` still-unconsumed stream bytes.
No other source — in particular no explicit zeroing — exists. -/
def fieldFrom (w old v : Nat) (s0 : List Nat) : Prop :=
  v = old ∨ ∃ off, v = bytesToNat ((s0.drop off).take w)

/-- Provenance of a whole entry after the tolerant reads: each field
either kept its value from `old` or was read from stream bytes at its
declared width (1, 2, 4). -/
def entryFieldsFrom (old e : Entry) (s0 : List Nat) : Prop :=
  fieldFrom 1 old.m_id e.m_id s0
  ∧ fieldFrom 2 old.m_flags e.m_flags s0
  ∧ fieldFrom 4 old.m_unk0x10 e.m_unk0x10 s0

theorem natToBytes_length (w v : Nat) : (natToBytes w v).length = w := by
  induction w generalizing v with
  | zero => rfl
  | succ w ih => simp [natToBytes, ih]

theorem bytesToNat_natToBytes (w v : Nat) (h : v < 256 ^ w) :
    bytesToNat (natToBytes w v) = v := by
  induction w generalizing v with
  | zero =>
      simp [Nat.pow_zero, Nat.lt_one_iff] at h
      simp [h, natToBytes, bytesToNat]
  | succ w ih =>
      have hdiv : v / 256 < 256 ^ w := by
        apply Nat.div_lt_of_lt_mul
        rw [Nat.pow_succ] at h
        omega
      simp [natToBytes, bytesToNat, ih (v / 256) hdiv]
      omega

theorem readField_encoded (w v old : Nat) (rest : List Nat) (h : v < 256 ^ w) :
    readField w old (natToBytes w v ++ rest) = (v, rest) := by
  have hl : (natToBytes w v).length = w := natToBytes_length w v
  rw [readField, if_pos]
  · rw [List.take_append_of_le_length (by omega),
        List.drop_append_of_le_length (by omega)]
    simp [List.take_of_length_le (Nat.le_of_eq hl),
          List.drop_of_length_le (Nat.le_of_eq hl), bytesToNat_natToBytes w v h]
  · simp [hl]

theorem readFromFile_encoded (e old : Entry) (rest : List Nat) (hv : e.valid) :
    Entry.readFromFile old (entryToBytes e ++ rest) = (e, rest) := by
  obtain ⟨h1, h2, h3⟩ := hv
  rw [entryToBytes, Entry.readFromFile]
  simp only [List.append_assoc]
  rw [readField_encoded 1 e.m_id old.m_id _ (by simpa using h1)]
  rw [readField_encoded 2 e.m_flags old.m_flags _ (by simpa using h2)]
  rw [readField_encoded 4 e.m_unk0x10 old.m_unk0x10 _ (by simpa using h3)]

theorem readFromFile_nil (old : Entry) :
    Entry.readFromFile old [] = (old, []) := by
  simp [Entry.readFromFile, readField]

theorem readFromFile_chunk (old : Entry) (bs rest : List Nat)
    (h : bs.length = entryWidth) :
    Entry.readFromFile old (bs ++ rest) = (decodeEntry bs, rest) := by
  rw [entryWidth] at h
  rcases bs with _ | ⟨x0, bs⟩
  · simp at h
  rcases bs with _ | ⟨x1, bs⟩
  · simp at h
  rcases bs with _ | ⟨x2, bs⟩
  · simp at h
  rcases bs with _ | ⟨x3, bs⟩
  · simp at h
  rcases bs with _ | ⟨x4, bs⟩
  · simp at h
  rcases bs with _ | ⟨x5, bs⟩
  · simp at h
  rcases bs with _ | ⟨x6, bs⟩
  · simp at h
  have hb : bs = [] := by
    simp only [List.length_cons] at h
    exact List.eq_nil_of_length_eq_zero (by omega)
  subst hb
  simp [Entry.readFromFile, readField, decodeEntry, List.take_succ_cons,
        List.drop_succ_cons]

theorem readLoop_nil (g : Fin 5 → Entry) :
    ∀ fuel i, readLoop fuel g [] i = (g, []) := by
  intro fuel
  induction fuel generalizing g with
  | zero => intro i; rfl
  | succ fuel ih =>
      intro i
      by_cases h : i < 5
      · rw [readLoop]
        simp only [h, dif_pos, readFromFile_nil]
        rw [Function.update_eq_self]
        exact ih g (i + 1)
      · rw [readLoop]
        simp [h]

theorem readLoop_writeLoop (f : Fin 5 → Entry) (hv : ∀ j, (f j).valid) :
    ∀ fuel i, fuel + i = 5 → ∀ (g : Fin 5 → Entry) (rest : List Nat),
    readLoop fuel g (writeLoop f fuel i ++ rest) i
      = (fun j => if i ≤ j.val then f j else g j, rest) := by
  intro fuel
  induction fuel with
  | zero =>
      intro i hi g rest
      simp only [writeLoop, List.nil_append, readLoop]
      congr 1
      funext j
      rw [if_neg (by omega)]
  | succ fuel ih =>
      intro i hi g rest
      have hlt : i < 5 := by omega
      rw [writeLoop]
      simp only [hlt, dif_pos, List.append_assoc]
      rw [readLoop]
      simp only [hlt, dif_pos]
      rw [readFromFile_encoded _ _ _ (hv ⟨i, hlt⟩)]
      rw [ih (i + 1) (by omega)]
      congr 1
      funext j
      rcases Nat.lt_trichotomy j.val i with hj | hj | hj
      · rw [if_neg (by omega), if_neg (by omega),
            Function.update_noteq (by simp [Fin.ext_iff]; omega)]
      · rw [if_neg (by omega), if_pos (by omega)]
        have hje : j = ⟨i, hlt⟩ := by simp [Fin.ext_iff]; omega
        rw [hje, Function.update_same]
      · rw [if_pos (by omega), if_pos (by omega)]

theorem readLoop_truncated (f : Fin 5 → Entry) :
    ∀ fuel i, fuel + i = 5 → ∀ c, c ≤ fuel →
    (∀ j : Fin 5, j.val < i + c → (f j).valid) →
    ∀ (g : Fin 5 → Entry),
    readLoop fuel g (writeLoop f c i) i
      = (fun j => if i ≤ j.val ∧ j.val < i + c then f j else g j, []) := by
  intro fuel
  induction fuel with
  | zero =>
      intro i hi c hc hv g
      interval_cases c
      simp only [writeLoop, readLoop]
      congr 1
      funext j
      rw [if_neg (by omega)]
  | succ fuel ih =>
      intro i hi c hc hv g
      have hlt : i < 5 := by omega
      match c with
      | 0 =>
          simp only [writeLoop]
          rw [readLoop_nil]
          congr 1
          funext j
          rw [if_neg (by omega)]
      | c + 1 =>
          rw [writeLoop]
          simp only [hlt, dif_pos]
          rw [readLoop]
          simp only [hlt, dif_pos]
          rw [readFromFile_encoded _ _ _ (hv ⟨i, hlt⟩ (by simp))]
          rw [ih (i + 1) (by omega) c (by omega)
              (by intro j hj; exact hv j (by omega))]
          congr 1
          funext j
          rcases Nat.lt_trichotomy j.val i with hj | hj | hj
          · rw [if_neg (by omega), if_neg (by omega),
                Function.update_noteq (by simp [Fin.ext_iff]; omega)]
          · rw [if_neg (by omega), if_pos (by omega)]
            have hje : j = ⟨i, hlt⟩ := by simp [Fin.ext_iff]; omega
            rw [hje, Function.update_same]
          · by_cases hjk : j.val < i + (c + 1)
            · rw [if_pos (by omega), if_pos (by omega)]
            · rw [if_neg (by omega), if_neg (by omega),
                  Function.update_noteq (by simp [Fin.ext_iff]; omega)]

theorem readLoop_chunks :
    ∀ (cks : List (List Nat)) (i : Nat), cks.length + i = 5 →
    (∀ c ∈ cks, c.length = entryWidth) →
    ∀ (g : Fin 5 → Entry) (rest : List Nat),
    readLoop cks.length g (cks.foldr (fun c acc => c ++ acc) rest) i
      = (fun j => if i ≤ j.val then decodeEntry (cks.getD (j.val - i) []) else g j,
         rest) := by
  intro cks
  induction cks with
  | nil =>
      intro i hi hlen g rest
      simp only [List.length_nil] at hi
      simp only [List.length_nil, List.foldr_nil, readLoop]
      congr 1
      funext j
      rw [if_neg (by have := j.isLt; omega)]
  | cons c cks ih =>
      intro i hi hlen g rest
      have hlt : i < 5 := by simp at hi; omega
      simp only [List.length_cons, List.foldr_cons]
      rw [readLoop]
      simp only [hlt, dif_pos]
      rw [readFromFile_chunk _ _ _ (hlen c (by simp))]
      rw [ih (i + 1) (by simp at hi; omega) (fun d hd => hlen d (by simp [hd])) _ rest]
      congr 1
      funext j
      rcases Nat.lt_trichotomy j.val i with hj | hj | hj
      · rw [if_neg (by omega), if_neg (by omega),
            Function.update_noteq (by simp [Fin.ext_iff]; omega)]
      · rw [if_neg (by omega), if_pos (by omega)]
        have hje : j = ⟨i, hlt⟩ := by simp [Fin.ext_iff]; omega
        rw [hje, Function.update_same]
        have : j.val - i = 0 := by omega
        rw [hje] at this
        simp [this]
      · rw [if_pos (by omega), if_pos (by omega)]
        have hs : j.val - i = (j.val - (i + 1)) + 1 := by omega
        rw [hs, List.getD_cons_succ]

theorem getStateLoop_spec (st : PizzaMissionState) (p_id : Nat) :
    ∀ fuel i, fuel + i = 5 →
    ((getStateLoop st p_id fuel i = none ↔
        ∀ j : Fin 5, i ≤ j.val → (st.m_state j).m_id ≠ p_id)
     ∧ ∀ j : Fin 5, getStateLoop st p_id fuel i = some j →
         i ≤ j.val ∧ (st.m_state j).m_id = p_id
           ∧ ∀ l : Fin 5, i ≤ l.val → l < j → (st.m_state l).m_id ≠ p_id) := by
  intro fuel
  induction fuel with
  | zero =>
      intro i hi
      constructor
      · simp only [getStateLoop, true_iff]
        intro j hj
        have := j.isLt
        omega
      · intro j hj
        simp [getStateLoop] at hj
  | succ fuel ih =>
      intro i hi
      have hlt : i < 5 := by omega
      obtain ⟨ih1, ih2⟩ := ih (i + 1) (by omega)
      by_cases heq : (st.m_state ⟨i, hlt⟩).m_id = p_id
      · constructor
        · constructor
          · intro h
            rw [getStateLoop, dif_pos hlt, if_pos heq] at h
            cases h
          · intro hall
            exact absurd heq (hall ⟨i, hlt⟩ (Nat.le_refl i))
        · intro j hj
          rw [getStateLoop, dif_pos hlt, if_pos heq] at hj
          obtain rfl : (⟨i, hlt⟩ : Fin 5) = j := by injection hj
          refine ⟨Nat.le_refl i, heq, ?_⟩
          intro l hil hlj
          have : l.val < i := hlj
          omega
      · have hrec : getStateLoop st p_id (fuel + 1) i = getStateLoop st p_id fuel (i + 1) := by
          rw [getStateLoop, dif_pos hlt, if_neg heq]
        constructor
        · rw [hrec, ih1]
          constructor
          · intro hall j hij
            by_cases hji : j.val = i
            · have : j = ⟨i, hlt⟩ := by simp [Fin.ext_iff, hji]
              rw [this]
              exact heq
            · exact hall j (by omega)
          · intro hall j hij
            exact hall j (by omega)
        · intro j hj
          rw [hrec] at hj
          obtain ⟨h1, h2, h3⟩ := ih2 j hj
          refine ⟨by omega, h2, ?_⟩
          intro l hil hlj
          by_cases hli : l.val = i
          · have : l = ⟨i, hlt⟩ := by simp [Fin.ext_iff, hli]
            rw [this]
            exact heq
          · exact h3 l (by omega) hlj

theorem tickleLoop_spec (u : Nat → Bool) :
    ∀ fuel (l : List Nat) (i : Nat), l.length - i ≤ fuel →
    tickleLoop u fuel l i
      = (l.drop i, l.take i ++ (l.drop i).filter (fun c => !u c)) := by
  intro fuel
  induction fuel with
  | zero =>
      intro l i hfi
      have hle : l.length ≤ i := by omega
      simp only [tickleLoop]
      rw [List.drop_eq_nil_of_le hle, List.take_of_length_le hle]
      simp
  | succ fuel ih =>
      intro l i hfi
      by_cases h : i < l.length
      · rw [tickleLoop]
        simp only [h, dif_pos]
        have hdi : l.drop i = l.get ⟨i, h⟩ :: l.drop (i + 1) := by
          rw [List.drop_eq_getElem_cons h]
          simp
        by_cases hu : u (l.get ⟨i, h⟩)
        · simp only [hu, if_pos]
          rw [ih (l.eraseIdx i) i
              (by rw [List.length_eraseIdx_of_lt h]; omega)]
          have he : l.eraseIdx i = l.take i ++ l.drop (i + 1) :=
            List.eraseIdx_eq_take_drop_succ l i
          have hti : (l.take i).length = i := by
            rw [List.length_take]; omega
          have hd2 : (l.eraseIdx i).drop i = l.drop (i + 1) := by
            rw [he, List.drop_append_of_le_length (by omega),
                List.drop_eq_nil_of_le (by omega), List.nil_append]
          have ht2 : (l.eraseIdx i).take i = l.take i := by
            rw [he, List.take_append_of_le_length (by omega), List.take_take]
            simp
          rw [hd2, ht2]
          simp only [Prod.mk.injEq]
          refine ⟨hdi.symm, ?_⟩
          rw [hdi, List.filter_cons]
          have hu2 : u l[i] = true := by simpa using hu
          rw [if_neg (by simp [hu2])]
        · simp only [hu, if_neg, Bool.not_eq_true]
          rw [ih l (i + 1) (by omega)]
          have ht3 : l.take (i + 1) = l.take i ++ [l.get ⟨i, h⟩] := by
            rw [List.take_succ, List.getElem?_eq_getElem h]
            simp
          simp only [Prod.mk.injEq]
          refine ⟨hdi.symm, ?_⟩
          rw [ht3, hdi, List.filter_cons]
          have hu2 : u l[i] = false := by
            have := Bool.not_eq_true (u (l.get ⟨i, h⟩))
            simp at hu
            simpa using hu
          rw [if_pos (by simp [hu2])]
          rw [List.append_assoc, List.singleton_append]
      · rw [tickleLoop]
        simp only [h, dif_neg, not_false_iff]
        have hle : l.length ≤ i := by omega
        rw [List.drop_eq_nil_of_le hle, List.take_of_length_le hle]
        simp

theorem tickleAll_spec (u : Nat → Bool) (l : List Nat) :
    tickleAll u l = (l, l.filter (fun c => !u c)) := by
  rw [tickleAll, tickleLoop_spec u l.length l 0 (by omega)]
  simp

theorem writeLoop_five (f : Fin 5 → Entry) :
    writeLoop f 5 0 = entryToBytes (f 0) ++ (entryToBytes (f 1)
      ++ (entryToBytes (f 2) ++ (entryToBytes (f 3)
      ++ (entryToBytes (f 4) ++ [])))) := rfl

/-- C1.  Serialization round-trip: writing any mission state whose five
entries have width-valid field values and then reading the written
bytes back into an arbitrary fresh `PizzaMissionState` reproduces all
five entries field-wise. -/
theorem serialize_roundTrip (st fresh : PizzaMissionState)
    (hv : ∀ j, (st.m_state j).valid) :
    ∀ j, ((PizzaMissionState.serialize fresh
        ⟨FileMode.read,
         (PizzaMissionState.serialize st ⟨FileMode.write, [], []⟩).2.2.written,
         []⟩).2.1).m_state j = st.m_state j := by
  intro j
  simp only [PizzaMissionState.serialize, legoStateSerialize, List.nil_append]
  have h := readLoop_writeLoop st.m_state hv 5 0 (by rfl) fresh.m_state []
  rw [List.append_nil] at h
  rw [h]
  simp

/-- Witness for C1 at a concrete state with five distinct valid
entries and a visibly dirty fresh state. -/
theorem serialize_roundTrip_witness :
    (∀ j, (exState.m_state j).valid)
    ∧ ∀ j, ((PizzaMissionState.serialize exFresh
        ⟨FileMode.read,
         (PizzaMissionState.serialize exState ⟨FileMode.write, [], []⟩).2.2.written,
         []⟩).2.1).m_state j = exState.m_state j :=
  ⟨by decide, serialize_roundTrip exState exFresh (by decide)⟩

/-- C2 (amended).  `PizzaMissionState::Serialize` performs no length
check: reading a stream holding only `k` full entry records
deserializes the `k` present entries correctly, leaves every remaining
entry with its previous in-memory value (no zeroing), and returns
`SUCCESS`, so truncation is not surfaced to the caller. -/
theorem serialize_truncated_success (st fresh : PizzaMissionState) (k : Nat)
    (w : List Nat) (hk : k ≤ 5)
    (hv : ∀ j : Fin 5, j.val < k → (st.m_state j).valid) :
    (PizzaMissionState.serialize fresh
        ⟨FileMode.read, writeLoop st.m_state k 0, w⟩).1 = SUCCESS
    ∧ ∀ j : Fin 5, ((PizzaMissionState.serialize fresh
        ⟨FileMode.read, writeLoop st.m_state k 0, w⟩).2.1).m_state j
        = if j.val < k then st.m_state j else fresh.m_state j := by
  constructor
  · simp [PizzaMissionState.serialize, legoStateSerialize]
  · intro j
    simp only [PizzaMissionState.serialize, legoStateSerialize]
    rw [readLoop_truncated st.m_state 5 0 (by rfl) k (by omega)
        (by intro j2 hj2; exact hv j2 (by omega)) fresh.m_state]
    simp

/-- Witness for the amended C2 at a concrete stream truncated after
two full records. -/
theorem serialize_truncated_success_witness :
    (2 ≤ 5) ∧ (∀ j : Fin 5, j.val < 2 → (exState.m_state j).valid)
    ∧ ((PizzaMissionState.serialize exFresh
          ⟨FileMode.read, writeLoop exState.m_state 2 0, []⟩).1 = SUCCESS
       ∧ ∀ j : Fin 5, ((PizzaMissionState.serialize exFresh
          ⟨FileMode.read, writeLoop exState.m_state 2 0, []⟩).2.1).m_state j
          = if j.val < 2 then exState.m_state j else exFresh.m_state j) :=
  ⟨by decide, by decide,
   serialize_truncated_success exState exFresh 2 [] (by decide) (by decide)⟩

/-- Counterexample to C2 as stated: on a stream truncated after two
full records, `Serialize` returns `SUCCESS` (no TruncatedStream result
is surfaced) and the unread fifth entry is left at its previous
nonzero value rather than an explicitly zeroed state. -/
theorem serialize_truncated_counterexample :
    (PizzaMissionState.serialize exFresh
        ⟨FileMode.read, writeLoop exState.m_state 2 0, []⟩).1 = SUCCESS
    ∧ ((PizzaMissionState.serialize exFresh
        ⟨FileMode.read, writeLoop exState.m_state 2 0, []⟩).2.1).m_state 4
        ≠ Entry.zero := by
  decide

/-- C3.  `PizzaMissionState::GetState` scans only the five in-bounds
entries (the result index is a `Fin 5` by construction): it returns
NULL exactly when no entry among the five carries `p_id`, and a
returned pointer designates the lowest-index entry whose `m_id`
equals `p_id`. -/
theorem getState_found_iff (st : PizzaMissionState) (p_id : Nat) :
    (st.getState p_id = none ↔ ∀ j : Fin 5, (st.m_state j).m_id ≠ p_id)
    ∧ ∀ j : Fin 5, st.getState p_id = some j →
        (st.m_state j).m_id = p_id
        ∧ ∀ l : Fin 5, l < j → (st.m_state l).m_id ≠ p_id := by
  obtain ⟨h1, h2⟩ := getStateLoop_spec st p_id 5 0 (by rfl)
  constructor
  · rw [PizzaMissionState.getState, h1]
    constructor
    · intro hall j
      exact hall j (Nat.zero_le _)
    · intro hall j hj
      exact hall j
  · intro j hj
    rw [PizzaMissionState.getState] at hj
    obtain ⟨-, hb, hc⟩ := h2 j hj
    exact ⟨hb, fun l hl => hc l (Nat.zero_le _) hl⟩

/-- Witness for C3: an absent id yields NULL, a present id yields the
first matching index, at the concrete example state. -/
theorem getState_found_iff_witness :
    ((exState.getState 200 = none ↔
        ∀ j : Fin 5, (exState.m_state j).m_id ≠ 200)
     ∧ ∀ j : Fin 5, exState.getState 200 = some j →
         (exState.m_state j).m_id = 200
         ∧ ∀ l : Fin 5, l < j → (exState.m_state l).m_id ≠ 200)
    ∧ exState.getState 200 = none ∧ exState.getState 3 = some 2 :=
  ⟨getState_found_iff exState 200, by decide, by decide⟩

/-- C4.  For every interleaved sequence of Register/Unregister/TickleAll
operations, every TickleAll pass ticks exactly the clients registered
when the pass began, once each, in registration order — including when
ticked clients unregister themselves from inside their own callback
(`u c` true); the pass is total (no crash) and later clients are
neither skipped nor repeated. -/
theorem tickle_exactly_once (u : Nat → Bool) (ops : List TickleOp)
    (l0 : List Nat) :
    ∀ pr ∈ (runOps u ops l0).2, pr.2 = pr.1 := by
  induction ops generalizing l0 with
  | nil =>
      intro pr hpr
      simp [runOps] at hpr
  | cons op rest ih =>
      match op with
      | TickleOp.reg c =>
          intro pr hpr
          exact ih (registerClient l0 c) pr hpr
      | TickleOp.unreg c =>
          intro pr hpr
          exact ih (unregisterClient l0 c) pr hpr
      | TickleOp.tickle =>
          intro pr hpr
          simp only [runOps, List.mem_cons] at hpr
          rcases hpr with hpr | hpr
          · rw [hpr]
            have := tickleAll_spec u l0
            rw [this]
          · exact ih (tickleAll u l0).2 pr hpr

/-- Witness for C4: the pass over registered clients [1, 2] with client
1 unregistering itself mid-pass still ticks exactly [1, 2]. -/
theorem tickle_exactly_once_witness :
    (([1, 2], [1, 2]) ∈ (runOps (fun c => c == 1)
        [TickleOp.reg 1, TickleOp.reg 2, TickleOp.reg 1, TickleOp.tickle,
         TickleOp.unreg 2, TickleOp.tickle] []).2)
    ∧ (([1, 2], [1, 2]) : List Nat × List Nat).2 = ([1, 2], [1, 2]).1 :=
  ⟨by decide,
   tickle_exactly_once (fun c => c == 1)
     [TickleOp.reg 1, TickleOp.reg 2, TickleOp.reg 1, TickleOp.tickle,
      TickleOp.unreg 2, TickleOp.tickle] [] ([1, 2], [1, 2]) (by decide)⟩

/-- C10.  `Pizza::~Pizza` unconditionally unregisters the actor from
the tickle scheduler: after the destructor runs, the client list never
contains the destroyed actor (whether or not it was registered), and
when it was never registered the list is simply unchanged. -/
theorem pizzaDestructor_unregisters (l : List Nat) (self : Nat)
    (h : l.Nodup) :
    self ∉ pizzaDestructor l self
    ∧ (self ∉ l → pizzaDestructor l self = l) := by
  constructor
  · rw [pizzaDestructor, unregisterClient]
    exact h.not_mem_erase
  · intro hn
    rw [pizzaDestructor, unregisterClient, List.erase_of_not_mem hn]

/-- Witness for C10 at a concrete client list. -/
theorem pizzaDestructor_unregisters_witness :
    ([3, 4] : List Nat).Nodup
    ∧ (4 ∉ pizzaDestructor [3, 4] 4
       ∧ (4 ∉ ([3, 4] : List Nat) → pizzaDestructor [3, 4] 4 = [3, 4])) :=
  ⟨by decide, pizzaDestructor_unregisters [3, 4] 4 (by decide)⟩

/-- C5.  `Pizza::CreateState` follows the lookup-then-create protocol
for both state names (see `createStateProtocol`): one `GetState` per
name first, a `CreateState` exactly when that lookup returned NULL, and
afterwards `m_state` / `m_act1state` hold the obtained registry-owned
objects. -/
theorem pizza_createState_protocol (p : Pizza) (r : Registry) :
    createStateProtocol p r := by
  rw [createStateProtocol]
  have hne : "Act1State" ≠ "PizzaMissionState" := by decide
  rcases h1 : r.table "PizzaMissionState" with - | a
  · rcases h2 : r.table "Act1State" with - | b
    · refine ⟨⟨r.next, r.next + 1, ?_⟩, ?_, ?_, ?_, ?_, ?_, ?_⟩ <;>
        simp [Pizza.createState, Registry.getState, Registry.createState,
              h1, h2, Function.update_noteq hne, Function.update_same]
    · refine ⟨⟨r.next, 0, ?_⟩, ?_, ?_, ?_, ?_, ?_, ?_⟩ <;>
        simp [Pizza.createState, Registry.getState, Registry.createState,
              h1, h2, Function.update_noteq hne, Function.update_same]
  · rcases h2 : r.table "Act1State" with - | b
    · refine ⟨⟨0, r.next, ?_⟩, ?_, ?_, ?_, ?_, ?_, ?_⟩ <;>
        simp [Pizza.createState, Registry.getState, Registry.createState,
              h1, h2, Function.update_noteq hne, Function.update_same]
    · refine ⟨⟨0, 0, ?_⟩, ?_, ?_, ?_, ?_, ?_, ?_⟩ <;>
        simp [Pizza.createState, Registry.getState, Registry.createState,
              h1, h2, Function.update_noteq hne, Function.update_same]

/-- Witness for C5 at an empty concrete registry. -/
theorem pizza_createState_protocol_witness :
    createStateProtocol pizzaInit exRegistry :=
  pizza_createState_protocol pizzaInit exRegistry

/-- C6.  `Pizza::Create` returns exactly the base-class result; on
`SUCCESS` it runs `CreateState` and stores the world's `Find` result in
`m_skateboard`, and on a base failure it performs neither side effect,
leaving the freshly constructed actor (all three pointers NULL) and the
registry untouched. -/
theorem pizza_create_propagates (r : Registry) (base : MxResult)
    (find : Option Nat) :
    (Pizza.create pizzaInit r base find).1 = base
    ∧ (base ≠ SUCCESS →
        Pizza.create pizzaInit r base find = (base, pizzaInit, r)
        ∧ pizzaInit.m_state = none ∧ pizzaInit.m_act1state = none
        ∧ pizzaInit.m_skateboard = none)
    ∧ (base = SUCCESS →
        (Pizza.create pizzaInit r base find).2.1.m_skateboard = find
        ∧ (Pizza.create pizzaInit r base find).2.1.m_state
            = (pizzaInit.createState r).1.m_state
        ∧ (Pizza.create pizzaInit r base find).2.1.m_act1state
            = (pizzaInit.createState r).1.m_act1state
        ∧ (Pizza.create pizzaInit r base find).2.2
            = (pizzaInit.createState r).2.1) := by
  by_cases hb : base = SUCCESS <;>
    simp [Pizza.create, hb, pizzaInit]

/-- Witness for C6: a failed base creation at a concrete registry is
propagated with no side effects. -/
theorem pizza_create_propagates_witness :
    Pizza.create pizzaInit exRegistry FAILURE none
      = (FAILURE, pizzaInit, exRegistry)
    ∧ pizzaInit.m_state = none ∧ pizzaInit.m_act1state = none
    ∧ pizzaInit.m_skateboard = none :=
  (pizza_create_propagates exRegistry FAILURE none).2.1 (by decide)

/-- C8.  The event hooks `Pizza::HandleClick`,
`Pizza::HandlePathStruct` and `Pizza::HandleEndAction` return 0, the
unhandled/default result, and change neither the actor nor any
registry state. -/
theorem pizza_handlers_unhandled (p : Pizza) (r : Registry) (param : Nat) :
    Pizza.handleClick p r = (0, p, r)
    ∧ Pizza.handlePathStruct p r param = (0, p, r)
    ∧ Pizza.handleEndAction p r param = (0, p, r) :=
  ⟨rfl, rfl, rfl⟩

/-- Witness for C8 at a concrete actor, registry and parameter. -/
theorem pizza_handlers_unhandled_witness :
    Pizza.handleClick pizzaInit exRegistry = (0, pizzaInit, exRegistry)
    ∧ Pizza.handlePathStruct pizzaInit exRegistry 9 = (0, pizzaInit, exRegistry)
    ∧ Pizza.handleEndAction pizzaInit exRegistry 9 = (0, pizzaInit, exRegistry) :=
  pizza_handlers_unhandled pizzaInit exRegistry 9

/-- C9.  `Helicopter::IsA(p_name)` holds exactly when `p_name` equals
"Helicopter" or the base-class `IslePathActor::IsA` accepts it, and in
particular the helicopter satisfies `IsA` of its own `ClassName`. -/
theorem helicopter_isA_spec (baseIsA : String → Bool) (name : String) :
    (Helicopter.isA baseIsA name = true ↔
      name = "Helicopter" ∨ baseIsA name = true)
    ∧ Helicopter.isA baseIsA Helicopter.className = true := by
  constructor
  · simp [Helicopter.isA, Helicopter.className]
  · simp [Helicopter.isA]

/-- Witness for C9 with a base query that rejects everything. -/
theorem helicopter_isA_spec_witness :
    ((Helicopter.isA (fun _ => false) "Helicopter" = true ↔
        "Helicopter" = "Helicopter" ∨ (fun _ : String => false) "Helicopter" = true)
     ∧ Helicopter.isA (fun _ => false) Helicopter.className = true) :=
  helicopter_isA_spec (fun _ => false) "Helicopter"

/-- C7.  `PizzaMissionState::Serialize` handles exactly the five
entries in strict index order 0..4 in one pass (see
`serializeOrderProp`): the write-mode output is the plain concatenation
of the five records with no delimiter, and in read mode entry `j` is
decoded from the `j`-th full-width record of the stream, consuming
exactly the five records. -/
theorem serialize_strict_order (st fresh : PizzaMissionState)
    (cs ws b0 b1 b2 b3 b4 rest : List Nat)
    (h0 : b0.length = entryWidth) (h1 : b1.length = entryWidth)
    (h2 : b2.length = entryWidth) (h3 : b3.length = entryWidth)
    (h4 : b4.length = entryWidth) :
    serializeOrderProp st fresh cs ws b0 b1 b2 b3 b4 rest := by
  rw [serializeOrderProp]
  have hlen : ∀ c ∈ [b0, b1, b2, b3, b4], c.length = entryWidth := by
    intro c hc
    simp only [List.mem_cons, List.not_mem_nil, or_false] at hc
    rcases hc with rfl | rfl | rfl | rfl | rfl <;> assumption
  have hc5 := readLoop_chunks [b0, b1, b2, b3, b4] 0 (by simp) hlen
    fresh.m_state rest
  simp only [List.length_cons, List.length_nil, List.foldr_cons,
             List.foldr_nil, Nat.zero_add, Nat.reduceAdd] at hc5
  refine ⟨?_, ?_, ?_⟩
  · simp only [PizzaMissionState.serialize, legoStateSerialize]
    rw [writeLoop_five]
  · intro j
    simp only [PizzaMissionState.serialize, legoStateSerialize]
    rw [hc5]
    simp
  · simp only [PizzaMissionState.serialize, legoStateSerialize]
    rw [hc5]

/-- Witness for C7 at five concrete full-width records. -/
theorem serialize_strict_order_witness :
    ((exChunk 1).length = entryWidth ∧ (exChunk 2).length = entryWidth
     ∧ (exChunk 3).length = entryWidth ∧ (exChunk 4).length = entryWidth
     ∧ (exChunk 5).length = entryWidth)
    ∧ serializeOrderProp exState exFresh [] [] (exChunk 1) (exChunk 2)
        (exChunk 3) (exChunk 4) (exChunk 5) [] :=
  ⟨⟨by decide, by decide, by decide, by decide, by decide⟩,
   serialize_strict_order exState exFresh [] [] (exChunk 1) (exChunk 2)
     (exChunk 3) (exChunk 4) (exChunk 5) [] (by decide) (by decide)
     (by decide) (by decide) (by decide)⟩

theorem fieldFrom_refl (w v : Nat) (s0 : List Nat) : fieldFrom w v v s0 :=
  Or.inl rfl

theorem fieldFrom_trans (w a b c : Nat) (s0 : List Nat)
    (hab : fieldFrom w a b s0) (hbc : fieldFrom w b c s0) :
    fieldFrom w a c s0 := by
  rcases hbc with rfl | h
  · exact hab
  · exact Or.inr h

theorem entryFieldsFrom_refl (e : Entry) (s0 : List Nat) :
    entryFieldsFrom e e s0 :=
  ⟨fieldFrom_refl 1 e.m_id s0, fieldFrom_refl 2 e.m_flags s0,
   fieldFrom_refl 4 e.m_unk0x10 s0⟩

theorem entryFieldsFrom_trans (a b c : Entry) (s0 : List Nat)
    (hab : entryFieldsFrom a b s0) (hbc : entryFieldsFrom b c s0) :
    entryFieldsFrom a c s0 :=
  ⟨fieldFrom_trans 1 _ _ _ s0 hab.1 hbc.1,
   fieldFrom_trans 2 _ _ _ s0 hab.2.1 hbc.2.1,
   fieldFrom_trans 4 _ _ _ s0 hab.2.2 hbc.2.2⟩

theorem readField_from (w old off : Nat) (s0 : List Nat) :
    ((readField w old (s0.drop off)).1 = old
      ∨ (readField w old (s0.drop off)).1
          = bytesToNat ((s0.drop off).take w))
    ∧ ∃ off2, (readField w old (s0.drop off)).2 = s0.drop off2 := by
  rw [readField]
  by_cases h : w ≤ (s0.drop off).length
  · rw [if_pos h]
    exact ⟨Or.inr rfl, off + w, List.drop_drop w off s0⟩
  · rw [if_neg h]
    exact ⟨Or.inl rfl, off, rfl⟩

theorem readFromFile_from (old : Entry) (off : Nat) (s0 : List Nat) :
    entryFieldsFrom old (Entry.readFromFile old (s0.drop off)).1 s0
    ∧ ∃ off2, (Entry.readFromFile old (s0.drop off)).2 = s0.drop off2 := by
  simp only [Entry.readFromFile]
  obtain ⟨h1, o1, ho1⟩ := readField_from 1 old.m_id off s0
  rw [ho1]
  obtain ⟨h2, o2, ho2⟩ := readField_from 2 old.m_flags o1 s0
  rw [ho2]
  obtain ⟨h3, o3, ho3⟩ := readField_from 4 old.m_unk0x10 o2 s0
  refine ⟨⟨?_, ?_, ?_⟩, o3, ho3⟩
  · rcases h1 with h | h
    · exact Or.inl h
    · exact Or.inr ⟨off, h⟩
  · rcases h2 with h | h
    · exact Or.inl h
    · exact Or.inr ⟨o1, h⟩
  · rcases h3 with h | h
    · exact Or.inl h
    · exact Or.inr ⟨o2, h⟩

theorem readLoop_from (s0 : List Nat) :
    ∀ fuel i (g : Fin 5 → Entry) (off : Nat) (j : Fin 5),
    entryFieldsFrom (g j) ((readLoop fuel g (s0.drop off) i).1 j) s0 := by
  intro fuel
  induction fuel with
  | zero =>
      intro i g off j
      exact entryFieldsFrom_refl (g j) s0
  | succ fuel ih =>
      intro i g off j
      by_cases h : i < 5
      · rw [readLoop]
        simp only [h, dif_pos]
        obtain ⟨he, o2, ho2⟩ := readFromFile_from (g ⟨i, h⟩) off s0
        rw [ho2]
        have hr := ih (i + 1)
          (Function.update g ⟨i, h⟩
            (Entry.readFromFile (g ⟨i, h⟩) (s0.drop off)).1) o2 j
        by_cases hj : j = ⟨i, h⟩
        · rw [hj] at hr ⊢
          rw [Function.update_same] at hr
          exact entryFieldsFrom_trans _ _ _ s0 he hr
        · rw [Function.update_noteq hj] at hr
          exact hr
      · rw [readLoop]
        simp only [h, dif_neg, not_false_iff]
        exact entryFieldsFrom_refl (g j) s0

theorem readFromFile_full (old : Entry) (s : List Nat)
    (h : entryWidth ≤ s.length) :
    Entry.readFromFile old s
      = (decodeEntry (s.take entryWidth), s.drop entryWidth) := by
  have hlen : (s.take entryWidth).length = entryWidth := by
    rw [List.length_take]
    omega
  calc Entry.readFromFile old s
      = Entry.readFromFile old (s.take entryWidth ++ s.drop entryWidth) := by
        rw [List.take_append_drop]
    _ = (decodeEntry (s.take entryWidth), s.drop entryWidth) :=
        readFromFile_chunk old _ _ hlen

theorem readLoop_lower :
    ∀ fuel i (g : Fin 5 → Entry) (s : List Nat) (j : Fin 5), j.val < i →
    (readLoop fuel g s i).1 j = g j := by
  intro fuel
  induction fuel with
  | zero =>
      intro i g s j hj
      rfl
  | succ fuel ih =>
      intro i g s j hj
      by_cases h : i < 5
      · rw [readLoop]
        simp only [h, dif_pos]
        rw [ih (i + 1) _ _ j (by omega)]
        rw [Function.update_noteq (by simp [Fin.ext_iff]; omega)]
      · rw [readLoop]
        simp [h]

theorem readLoop_fullRecords :
    ∀ fuel i, fuel + i = 5 → ∀ (g : Fin 5 → Entry) (s : List Nat) (j : Fin 5),
    i ≤ j.val → entryWidth * (j.val - i + 1) ≤ s.length →
    (readLoop fuel g s i).1 j
      = decodeEntry ((s.drop (entryWidth * (j.val - i))).take entryWidth) := by
  intro fuel
  induction fuel with
  | zero =>
      intro i hi g s j hij hlen
      have := j.isLt
      omega
  | succ fuel ih =>
      intro i hi g s j hij hlen
      have hlt : i < 5 := by omega
      simp only [entryWidth] at hlen ⊢
      rw [readLoop]
      simp only [hlt, dif_pos]
      rw [readFromFile_full _ _ (by simp only [entryWidth]; omega)]
      simp only [entryWidth]
      by_cases hji : j.val = i
      · have hj : j = ⟨i, hlt⟩ := Fin.ext hji
        rw [readLoop_lower fuel (i + 1) _ _ j (by omega)]
        rw [hj, Function.update_same]
        have hz : (j.val - i) = 0 := by omega
        rw [hj] at hz
        rw [hz]
        simp
      · rw [ih (i + 1) (by omega) _ _ j (by omega)
            (by simp only [entryWidth, List.length_drop]; omega)]
        simp only [entryWidth, List.drop_drop]
        congr 3
        omega

/-- C2 (amended).  For every input stream with fewer bytes than five
full entry records, `PizzaMissionState::Serialize` in read mode
performs no length check: it deserializes every fully present record
correctly, each field of the remaining (partially read or unread)
entries either keeps its previous in-memory value or is filled from
still-unconsumed stream bytes at its declared width — no zeroing takes
place — and it returns `SUCCESS`, surfacing no TruncatedStream
condition. -/
theorem serialize_no_length_check (fresh : PizzaMissionState)
    (s w : List Nat) (_hs : s.length < 5 * entryWidth) :
    (PizzaMissionState.serialize fresh ⟨FileMode.read, s, w⟩).1 = SUCCESS
    ∧ (∀ j : Fin 5, entryWidth * (j.val + 1) ≤ s.length →
        ((PizzaMissionState.serialize fresh
            ⟨FileMode.read, s, w⟩).2.1).m_state j
          = decodeEntry ((s.drop (entryWidth * j.val)).take entryWidth))
    ∧ (∀ j : Fin 5, entryFieldsFrom (fresh.m_state j)
        (((PizzaMissionState.serialize fresh
            ⟨FileMode.read, s, w⟩).2.1).m_state j) s) := by
  refine ⟨?_, ?_, ?_⟩
  · simp [PizzaMissionState.serialize, legoStateSerialize]
  · intro j hj
    simp only [PizzaMissionState.serialize, legoStateSerialize]
    rw [readLoop_fullRecords 5 0 (by rfl) fresh.m_state s j (Nat.zero_le _)
        (by simpa using hj)]
    simp
  · intro j
    simp only [PizzaMissionState.serialize, legoStateSerialize]
    have hfrom := readLoop_from s 5 0 fresh.m_state 0 j
    simpa using hfrom

/-- Witness for the amended C2 on the mid-record truncation scenario:
one full record followed by a single stray byte. -/
theorem serialize_no_length_check_witness :
    ((writeLoop exState.m_state 1 0 ++ [9]).length < 5 * entryWidth)
    ∧ ((PizzaMissionState.serialize exFresh
          ⟨FileMode.read, writeLoop exState.m_state 1 0 ++ [9], []⟩).1 = SUCCESS
       ∧ (∀ j : Fin 5,
            entryWidth * (j.val + 1)
              ≤ (writeLoop exState.m_state 1 0 ++ [9]).length →
            ((PizzaMissionState.serialize exFresh
                ⟨FileMode.read, writeLoop exState.m_state 1 0 ++ [9], []⟩).2.1).m_state j
              = decodeEntry (((writeLoop exState.m_state 1 0 ++ [9]).drop
                  (entryWidth * j.val)).take entryWidth))
       ∧ (∀ j : Fin 5, entryFieldsFrom (exFresh.m_state j)
            (((PizzaMissionState.serialize exFresh
                ⟨FileMode.read, writeLoop exState.m_state 1 0 ++ [9], []⟩).2.1).m_state j)
            (writeLoop exState.m_state 1 0 ++ [9]))) :=
  ⟨by decide,
   serialize_no_length_check exFresh (writeLoop exState.m_state 1 0 ++ [9]) []
     (by decide)⟩
